import Mathlib

/-!
# parca-agent `pkg/logger`

A shallow embedding of `src/pkg/logger/logger.go`: the constructor `NewLogger`
and the libbpf callback adapter `NewLibbpfLogCallbacks`, together with the
parts of the imported packages `github.com/go-kit/log`, `github.com/go-kit/log/level`
and `libbpfgo` that the two functions call.

Effects are explicit: a `World` holds the wall clock, what has been written to
`os.Stderr`, and the record of the `log.Valuer` functions that have been run.
-/

namespace logger

/-! ## Values that travel in a key/value list -/

/-- Modelled from the spec: the `levelValue` type of go-kit/log/level is imported, not
under src/. Spec 3: severity is "an ordered enumeration {error, warn, info,
debug}"; these are the values `level.DebugValue()` ... `level.ErrorValue()`. -/
inductive Level where
  | debug
  | info
  | warn
  | error
  deriving DecidableEq, Repr

/-- Modelled from the spec: the level bits of go-kit/log/level are imported, not under
src/. Spec 3 orders the severities error > warn > info > debug; the library
encodes them as `levelDebug = 1 << iota`, `levelInfo`, `levelWarn`, `levelError`. -/
def Level.bit : Level → Nat
  | .debug => 1
  | .info => 2
  | .warn => 4
  | .error => 8

/-- Modelled from the spec: `log.Valuer` is imported, not under src/. These are the two
valuers `NewLogger` binds, `log.DefaultTimestampUTC` and `log.DefaultCaller`
(spec 4.1 step 6). -/
inductive Valuer where
  | DefaultTimestampUTC
  | DefaultCaller
  deriving DecidableEq, Repr

/-- An `interface{}` element of a `keyvals ...interface{}` list. Keys and values
share the type, as in Go. `timeFormat` is the value `log.TimestampFormat`
produces (a time together with its layout), `caller` the value `log.Caller`
produces (a `file:line` call site). -/
inductive Value where
  | str (s : String)
  | int (n : Int)
  | levelValue (l : Level)
  | valuer (f : Valuer)
  | timeFormat (t : Nat) (layout : String)
  | caller (site : String)
  | ErrMissingValue
  deriving DecidableEq, Repr

/-- The constants of `logger.go`, lines 24-27. -/
def LogFormatLogfmt : String := "logfmt"

/-- The constants of `logger.go`, lines 24-27. -/
def LogFormatJSON : String := "json"

/-- The layout `time.RFC3339Nano` that `log.DefaultTimestampUTC` formats with. -/
def RFC3339Nano : String := "2006-01-02T15:04:05.999999999Z07:00"

/-- The serialization of a line: which of `log.NewLogfmtLogger` and
`log.NewJSONLogger` wrote it. -/
inductive Format where
  | logfmt
  | json
  deriving DecidableEq, Repr

/-- One line on `os.Stderr`: the single `Write` a serializer makes for one
entry, kept as the serialization and the key/value list it was given. The
rendering of the list to bytes is the serializer's and is not modelled. -/
structure Line where
  format : Format
  keyvals : List Value
  deriving DecidableEq, Repr

/-- The state the package acts on. `now` is the wall clock read by
`time.Now().UTC()` (nanoseconds), `stderr` the lines written so far, oldest
first, and `evaluated` the valuers that have been run so far, oldest first. -/
structure World where
  now : Nat
  stderr : List Line
  evaluated : List Valuer
  deriving DecidableEq, Repr

/-! ## go-kit/log -/

/-- Modelled from the spec: the loggers of go-kit/log are imported, not under src/ (spec
3, "Logger handle"). `logfmtLogger` and `jsonLogger` stand for
`log.NewLogfmtLogger(log.NewSyncWriter(os.Stderr))` and
`log.NewJSONLogger(log.NewSyncWriter(os.Stderr))`; `filter` is the logger
`level.NewFilter` returns, with its `allowed` bit mask; `context` is the logger
`log.With` and `log.WithPrefix` return, with its bound `keyvals` and the
`hasValuer` flag. -/
inductive Logger where
  | logfmtLogger
  | jsonLogger
  | filter (next : Logger) (allowed : Nat)
  | context (logger : Logger) (keyvals : List Value) (hasValuer : Bool)
  deriving DecidableEq, Repr

/-- Modelled from the spec: `Valuer` evaluation of go-kit/log is imported, not under
src/. Spec 4.1 step 6: `ts` is "the current UTC timestamp at time of emission",
`caller` "the source location of the log call site". Running a valuer is
recorded in `World.evaluated`; `site` is the call site `runtime.Caller` reports
for the running `Log` call. -/
def Valuer.eval (site : String) (w : World) : Valuer → Value × World
  | .DefaultTimestampUTC =>
    (.timeFormat w.now RFC3339Nano, { w with evaluated := w.evaluated ++ [.DefaultTimestampUTC] })
  | .DefaultCaller =>
    (.caller site, { w with evaluated := w.evaluated ++ [.DefaultCaller] })

/-- Modelled from the spec: `bindValues` of go-kit/log is imported, not under src/. It
replaces every value (odd index) that is a `Valuer` by the result of running
it, left to right. -/
def bindValues (site : String) : List Value → World → List Value × World
  | k :: .valuer f :: rest, w =>
    let r := f.eval site w
    let t := bindValues site rest r.2
    (k :: r.1 :: t.1, t.2)
  | k :: v :: rest, w =>
    let t := bindValues site rest w
    (k :: v :: t.1, t.2)
  | kvs, w => (kvs, w)

/-- Modelled from the spec: `containsValuer` of go-kit/log is imported, not under src/.
It tells whether some value (odd index) is a `Valuer`. -/
def containsValuer : List Value → Bool
  | _ :: .valuer _ :: _ => true
  | _ :: _ :: rest => containsValuer rest
  | _ => false

/-- Modelled from the spec: the padding step of `With`, `WithPrefix` and `Log` of
go-kit/log is imported, not under src/. It appends `log.ErrMissingValue` to a
key/value list of odd length. -/
def padMissing (kvs : List Value) : List Value :=
  if kvs.length % 2 ≠ 0 then kvs ++ [.ErrMissingValue] else kvs

/-- Modelled from the spec: the filter of go-kit/log/level is imported, not under src/.
Spec 4.1 step 4: "only entries at the resolved threshold or more severe are
actually written". The library's `Log` looks for the first `levelValue` among
the values (odd indexes); this is that search. -/
def findLevel : List Value → Option Level
  | _ :: .levelValue l :: _ => some l
  | _ :: _ :: rest => findLevel rest
  | _ => none

/-- Modelled from the spec: the `Log` methods of go-kit/log and go-kit/log/level are
imported, not under src/.

* The serializers write one line per entry (spec 6: "one line per log entry").
* The filter passes an entry without a level on (the library's default, no
  `SquelchNoLevel`), passes an entry whose first level is allowed on, and drops
  every other entry.
* A context appends the call's `keyvals` to its bound ones, pads an odd list,
  runs the valuers among its bound values when `hasValuer` is set, and passes
  the result to the wrapped logger (library doc: "Log replaces all value
  elements (odd indexes) containing a Valuer in the stored context with their
  generated value, appends keyvals, and passes the result to the wrapped
  Logger"). -/
def Logger.Log : Logger → List Value → String → World → World
  | .logfmtLogger, keyvals, _, w => { w with stderr := w.stderr ++ [⟨.logfmt, keyvals⟩] }
  | .jsonLogger, keyvals, _, w => { w with stderr := w.stderr ++ [⟨.json, keyvals⟩] }
  | .filter next allowed, keyvals, site, w =>
    match findLevel keyvals with
    | some l => if allowed &&& l.bit ≠ 0 then next.Log keyvals site w else w
    | none => next.Log keyvals site w
  | .context logger bound hasValuer, keyvals, site, w =>
    let kvs := padMissing (bound ++ keyvals)
    if hasValuer then
      let r := bindValues site (kvs.take bound.length) w
      logger.Log (r.1 ++ kvs.drop bound.length) site r.2
    else
      logger.Log kvs site w

/-- Modelled from the spec: `newContext` of go-kit/log is imported, not under src/. A
logger that is a context is taken as it is, any other logger becomes a context
with nothing bound. The result is the triple of the context's fields. -/
def newContext : Logger → Logger × List Value × Bool
  | .context logger keyvals hasValuer => (logger, keyvals, hasValuer)
  | l => (l, [], false)

/-- Modelled from the spec: `log.With` of go-kit/log is imported, not under src/. Spec 3:
"each derivation shares the underlying writer but carries additional bound
fields". The library appends `keyvals` after the fields already bound. -/
def log.With (logger : Logger) (keyvals : List Value) : Logger :=
  if keyvals.length = 0 then logger
  else
    let l := newContext logger
    let kvs := padMissing (l.2.1 ++ keyvals)
    .context l.1 kvs (l.2.2 || containsValuer keyvals)

/-- Modelled from the spec: `log.WithPrefix` of go-kit/log is imported, not under src/.
It is `log.With`, except that `keyvals` go ahead of the fields already bound. -/
def log.WithPrefix (logger : Logger) (keyvals : List Value) : Logger :=
  if keyvals.length = 0 then logger
  else
    let l := newContext logger
    let kvs := padMissing keyvals ++ l.2.1
    .context l.1 kvs (l.2.2 || containsValuer keyvals)

/-! ## go-kit/log/level -/

/-- Modelled from the spec: `level.Key` is imported, not under src/. It is the key of
the level field, "level". -/
def level.Key : Value := .str "level"

/-- Modelled from the spec: `level.AllowError` is imported, not under src/. It allows
error only. -/
def level.AllowError : Nat := Level.error.bit

/-- Modelled from the spec: `level.AllowWarn` is imported, not under src/. It allows
error and warn. -/
def level.AllowWarn : Nat := Level.error.bit ||| Level.warn.bit

/-- Modelled from the spec: `level.AllowInfo` is imported, not under src/. It allows
error, warn and info. -/
def level.AllowInfo : Nat := Level.error.bit ||| Level.warn.bit ||| Level.info.bit

/-- Modelled from the spec: `level.AllowDebug` is imported, not under src/. It allows
all four levels. -/
def level.AllowDebug : Nat :=
  Level.error.bit ||| Level.warn.bit ||| Level.info.bit ||| Level.debug.bit

/-- Modelled from the spec: `level.NewFilter` is imported, not under src/. It wraps
`next` in a filter that carries the allowed levels. -/
def level.NewFilter (next : Logger) (lvl : Nat) : Logger := .filter next lvl

/-- Modelled from the spec: `level.Debug` is imported, not under src/. It is
`log.WithPrefix(logger, Key(), DebugValue())`. -/
def level.Debug (logger : Logger) : Logger :=
  log.WithPrefix logger [level.Key, .levelValue .debug]

/-- Modelled from the spec: `level.Info` is imported, not under src/. It is
`log.WithPrefix(logger, Key(), InfoValue())`. -/
def level.Info (logger : Logger) : Logger :=
  log.WithPrefix logger [level.Key, .levelValue .info]

/-- Modelled from the spec: `level.Warn` is imported, not under src/. It is
`log.WithPrefix(logger, Key(), WarnValue())`. -/
def level.Warn (logger : Logger) : Logger :=
  log.WithPrefix logger [level.Key, .levelValue .warn]

/-- Modelled from the spec: `level.Error` is imported, not under src/. It is
`log.WithPrefix(logger, Key(), ErrorValue())`. -/
def level.Error (logger : Logger) : Logger :=
  log.WithPrefix logger [level.Key, .levelValue .error]

/-! ## libbpfgo -/

/-- Modelled from the spec: `libbpf.LibbpfWarnLevel` is a constant of libbpfgo, not
under src/: the value of `LIBBPF_WARN` in libbpf's `enum libbpf_print_level`. -/
def LibbpfWarnLevel : Int := 0

/-- Modelled from the spec: `libbpf.LibbpfInfoLevel` is a constant of libbpfgo, not
under src/: the value of `LIBBPF_INFO` in libbpf's `enum libbpf_print_level`. -/
def LibbpfInfoLevel : Int := 1

/-- Modelled from the spec: `libbpf.LibbpfDebugLevel` is a constant of libbpfgo, not
under src/: the value of `LIBBPF_DEBUG` in libbpf's `enum libbpf_print_level`. -/
def LibbpfDebugLevel : Int := 2

/-- Modelled from the spec: `libbpf.Callbacks` is a type of libbpfgo, not under src/
(spec 6, "Adapter entrypoint"). This is the part of it that this package sets: the `Log` callback,
called with the native severity code and the message. The third argument is
the call site of the callback's `Log` call, the fourth the world it runs in. -/
structure Callbacks where
  Log : Int → String → String → World → World

/-! ## `logger.go` -/

/-- The function `NewLogger` of `logger.go`, lines 34-72. A panic is the error of
`Except`; the world is passed through unchanged, since construction neither
reads the clock nor writes. -/
def NewLogger (logLevel logFormat debugName : String) (w : World) :
    Except String (Logger × World) :=
  let lvl : Except String Nat :=
    if logLevel = "error" then .ok level.AllowError
    else if logLevel = "warn" then .ok level.AllowWarn
    else if logLevel = "info" then .ok level.AllowInfo
    else if logLevel = "debug" then .ok level.AllowDebug
    else .error "unexpected log level"
  match lvl with
  | .error e => .error e
  | .ok lvl =>
    let logFormat := if logFormat = "" then LogFormatLogfmt else logFormat
    let logger := Logger.logfmtLogger
    let logger := if logFormat = LogFormatJSON then Logger.jsonLogger else logger
    let logger := level.NewFilter logger lvl
    let logger :=
      if debugName ≠ "" then log.With logger [.str "name", .str debugName] else logger
    .ok (log.With logger
      [.str "ts", .valuer .DefaultTimestampUTC, .str "caller", .valuer .DefaultCaller], w)

/-- The function `NewLibbpfLogCallbacks` of `logger.go`, lines 74-92. -/
def NewLibbpfLogCallbacks (logger : Logger) : Callbacks where
  Log := fun lvl msg site w =>
    let logger := log.With logger [.str "component", .str "libbpf"]
    let logger :=
      if lvl = LibbpfDebugLevel then level.Debug logger
      else if lvl = LibbpfInfoLevel then level.Info logger
      else if lvl = LibbpfWarnLevel then level.Warn logger
      else logger
    logger.Log [.str "msg", .str msg] site w

/-! ## Vocabulary of the statements -/

/-- The severity order of spec 3 as a rank: error > warn > info > debug. -/
def Level.rank : Level → Nat
  | .debug => 0
  | .info => 1
  | .warn => 2
  | .error => 3

/-- The string that names a level. -/
def Level.name : Level → String
  | .debug => "debug"
  | .info => "info"
  | .warn => "warn"
  | .error => "error"

/-- The helper of go-kit/log/level that tags with level `l`: `level.Debug`,
`level.Info`, `level.Warn` or `level.Error`. -/
def level.tagged (l : Level) (logger : Logger) : Logger :=
  match l with
  | .debug => level.Debug logger
  | .info => level.Info logger
  | .warn => level.Warn logger
  | .error => level.Error logger

/-- The keys of a key/value list: its elements at even indexes. -/
def keysOf : List Value → List Value
  | k :: _ :: rest => k :: keysOf rest
  | [k] => [k]
  | [] => []

/-- The values bound to key `k` in a key/value list, in order. -/
def valuesOf (k : Value) : List Value → List Value
  | k1 :: v :: rest => if k1 = k then v :: valuesOf k rest else valuesOf k rest
  | _ => []

/-- The lines a step appended to `os.Stderr`: what `after` holds beyond `before`. -/
def written (before after : World) : List Line :=
  after.stderr.drop before.stderr.length

/-- A `Log` call through the handle `h`: on the handle itself (`none`), or on
the logger one of `level.Debug`, `level.Info`, `level.Warn`, `level.Error`
derives from it (`some l`). -/
def emit (h : Logger) (tag : Option Level) (keyvals : List Value) (site : String)
    (w : World) : World :=
  match tag with
  | none => h.Log keyvals site w
  | some l => (level.tagged l h).Log keyvals site w

/-- The level field a level helper puts ahead of an entry. -/
def tagFields : Option Level → List Value
  | none => []
  | some l => [level.Key, .levelValue l]

/-- The fields a handle of `NewLogger` is expected to attach to an entry
emitted at clock `now` from call site `site`: `name` when `debugName` is not
empty, then `ts` and `caller`. -/
def handleFields (debugName : String) (now : Nat) (site : String) : List Value :=
  (if debugName ≠ "" then [.str "name", .str debugName] else []) ++
    [.str "ts", .timeFormat now RFC3339Nano, .str "caller", .caller site]

/-- The level the libbpf callback is expected to tag with for a native
severity code; `none` for a code that is none of the three constants. -/
def mappedLevel (code : Int) : Option Level :=
  if code = LibbpfDebugLevel then some .debug
  else if code = LibbpfInfoLevel then some .info
  else if code = LibbpfWarnLevel then some .warn
  else none

/-- The bound fields of a handle as a `Log` call delivers them, and the world
after the valuers among them have run: the valuers are run when the handle's
`hasValuer` flag is set. -/
def boundValues (h : Logger) (site : String) (w : World) : List Value × World :=
  if (newContext h).2.2 then bindValues site (newContext h).2.1 w
  else ((newContext h).2.1, w)

/-- The allowed-levels mask `NewLogger` selects for a threshold. -/
def allowOf : Level → Nat
  | .error => level.AllowError
  | .warn => level.AllowWarn
  | .info => level.AllowInfo
  | .debug => level.AllowDebug

/-- The serialization `NewLogger` is expected to select for a format string. -/
def formatOf (logFormat : String) : Format :=
  if logFormat = "json" then .json else .logfmt

/-- The serializer that writes in a given serialization. -/
def sinkOf : Format → Logger
  | .json => .jsonLogger
  | .logfmt => .logfmtLogger

/-- The shape of the handle `NewLogger` builds: one context over the filter
over the serializer. -/
def handleOf (L : Level) (logFormat debugName : String) : Logger :=
  .context (.filter (sinkOf (formatOf logFormat)) (allowOf L))
    ((if debugName ≠ "" then [.str "name", .str debugName] else []) ++
      [.str "ts", .valuer .DefaultTimestampUTC, .str "caller", .valuer .DefaultCaller]) true

/-- Whether the filter of threshold `L` passes an entry on. -/
def passes (L : Level) (entry : List Value) : Bool :=
  match findLevel entry with
  | some l => decide (L.rank ≤ l.rank)
  | none => true

/-- The entry a `Log` call through a handle of `NewLogger` hands to the filter. -/
def entryOf (debugName : String) (tag : Option Level) (keyvals : List Value) (site : String)
    (w : World) : List Value :=
  tagFields tag ++ handleFields debugName w.now site ++ padMissing keyvals

/-- The entry the libbpf callback hands to the filter when it is built over a
handle of `NewLogger`. -/
def callbackEntry (debugName : String) (code : Int) (msg : String) (site : String)
    (w : World) : List Value :=
  tagFields (mappedLevel code) ++ handleFields debugName w.now site ++
    [.str "component", .str "libbpf", .str "msg", .str msg]

/-- The keys of a line as strings, in the order given; `none` when some key is
not a string (every key this package produces is one). -/
def keyStrings : List Value → Option (List String)
  | [] => some []
  | .str s :: ks => (keyStrings ks).map (s :: ·)
  | _ :: _ => none

/-- The order of Go strings on their characters: the first difference decides,
and a proper initial part comes first. -/
def ltChars : List Char → List Char → Bool
  | [], [] => false
  | [], _ :: _ => true
  | _ :: _, [] => false
  | a :: as, b :: bs =>
    if a.toNat < b.toNat then true else if b.toNat < a.toNat then false else ltChars as bs

/-- The order in which `encoding/json` sorts map keys: Go's `<` on strings. -/
def keyLt (a b : String) : Bool := ltChars a.data b.data

/-- Puts a key into a sorted list of distinct keys, keeping it sorted and
distinct. -/
def insertKey (k : String) : List String → List String
  | [] => [k]
  | x :: xs =>
    if k = x then x :: xs else if keyLt k x then k :: x :: xs else x :: insertKey k xs

/-- The keys of a map in the order `encoding/json` writes them: each key once,
sorted. -/
def sortedKeys (ks : List String) : List String :=
  ks.foldl (fun acc k => insertKey k acc) []

/-- Modelled from the spec: the encoders of go-kit/log are imported, not under src/. Spec
6: a line is "either logfmt (`key=value ...`) or JSON object per line". The
logfmt encoder writes the pairs in the order it is given them; the JSON logger
collects the pairs in a map, which `encoding/json` writes with its keys sorted.
This is the order in which the keys stand on the written line. -/
def Line.fieldOrder (line : Line) : Option (List String) :=
  match line.format with
  | .logfmt => keyStrings (keysOf line.keyvals)
  | .json => (keyStrings (keysOf line.keyvals)).map sortedKeys

/-! ## Lemmas on key/value lists -/

theorem pairInduction {P : List Value → Prop} (h0 : P []) (h1 : ∀ a, P [a])
    (h2 : ∀ a b l, P l → P (a :: b :: l)) : ∀ l, P l
  | [] => h0
  | [a] => h1 a
  | a :: b :: l => h2 a b l (pairInduction h0 h1 h2 l)

theorem padMissing_cons_cons (a b : Value) (kvs : List Value) :
    padMissing (a :: b :: kvs) = a :: b :: padMissing kvs := by
  unfold padMissing
  by_cases h : kvs.length % 2 = 0
  · have h2 : (kvs.length + 1 + 1) % 2 = 0 := by omega
    simp [h, h2]
  · have h2 : ¬ (kvs.length + 1 + 1) % 2 = 0 := by omega
    simp [h, h2]

theorem padMissing_of_even (kvs : List Value) (h : kvs.length % 2 = 0) :
    padMissing kvs = kvs := by
  simp [padMissing, h]

theorem padMissing_append_even (a kvs : List Value) (h : a.length % 2 = 0) :
    padMissing (a ++ kvs) = a ++ padMissing kvs := by
  unfold padMissing
  by_cases hk : kvs.length % 2 = 0
  · have h2 : (a.length + kvs.length) % 2 = 0 := by omega
    simp [hk, h2]
  · have h2 : ¬ (a.length + kvs.length) % 2 = 0 := by omega
    simp [hk, h2]

theorem findLevel_padMissing (kvs : List Value) : findLevel (padMissing kvs) = findLevel kvs := by
  induction kvs using pairInduction with
  | h0 => simp [padMissing]
  | h1 a => simp [padMissing, findLevel]
  | h2 a b l ih =>
    rw [padMissing_cons_cons]
    cases b <;> simp [findLevel, ih]

theorem bindValues_length (site : String) (kvs : List Value) (w : World) :
    (bindValues site kvs w).1.length = kvs.length := by
  induction kvs using pairInduction generalizing w with
  | h0 => simp [bindValues]
  | h1 a => simp [bindValues]
  | h2 a b l ih =>
    cases b <;> simp [bindValues, ih]

theorem bindValues_stderr (site : String) (kvs : List Value) (w : World) :
    (bindValues site kvs w).2.stderr = w.stderr ∧ (bindValues site kvs w).2.now = w.now := by
  induction kvs using pairInduction generalizing w with
  | h0 => simp [bindValues]
  | h1 a => simp [bindValues]
  | h2 a b l ih =>
    cases b with
    | valuer f => cases f <;> simp [bindValues, ih, Valuer.eval]
    | _ => simp [bindValues, ih]

theorem keysOf_padMissing (kvs : List Value) : keysOf (padMissing kvs) = keysOf kvs := by
  induction kvs using pairInduction with
  | h0 => simp [padMissing]
  | h1 a => simp [padMissing, keysOf]
  | h2 a b l ih =>
    rw [padMissing_cons_cons]
    simp [keysOf, ih]

theorem keysOf_append_even (a b : List Value) (h : a.length % 2 = 0) :
    keysOf (a ++ b) = keysOf a ++ keysOf b := by
  induction a using pairInduction with
  | h0 => simp [keysOf]
  | h1 x => simp at h
  | h2 x y l ih =>
    have hl : l.length % 2 = 0 := by
      simp only [List.length_cons] at h
      omega
    simp [keysOf, ih hl]

theorem valuesOf_append_even (k : Value) (a b : List Value) (h : a.length % 2 = 0) :
    valuesOf k (a ++ b) = valuesOf k a ++ valuesOf k b := by
  induction a using pairInduction with
  | h0 => simp [valuesOf]
  | h1 x => simp at h
  | h2 x y l ih =>
    have hl : l.length % 2 = 0 := by
      simp only [List.length_cons] at h
      omega
    by_cases hx : x = k <;> simp [valuesOf, ih hl, hx]

theorem valuesOf_eq_nil (k : Value) (kvs : List Value) (h : k ∉ keysOf kvs) :
    valuesOf k kvs = [] := by
  induction kvs using pairInduction with
  | h0 => simp [valuesOf]
  | h1 x => simp [valuesOf]
  | h2 x y l ih =>
    simp only [keysOf, List.mem_cons, not_or] at h
    have hx : ¬ x = k := fun c => h.1 c.symm
    simp [valuesOf, hx, ih h.2]

theorem keysOf_bindValues (site : String) (kvs : List Value) (w : World) :
    keysOf (bindValues site kvs w).1 = keysOf kvs := by
  induction kvs using pairInduction generalizing w with
  | h0 => simp [bindValues]
  | h1 a => simp [bindValues]
  | h2 a b l ih =>
    cases b <;> simp [bindValues, keysOf, ih]

theorem bindValues_append_even (site : String) (a b : List Value) (w : World)
    (h : a.length % 2 = 0) :
    bindValues site (a ++ b) w =
      ((bindValues site a w).1 ++ (bindValues site b (bindValues site a w).2).1,
        (bindValues site b (bindValues site a w).2).2) := by
  induction a using pairInduction generalizing w with
  | h0 => simp [bindValues]
  | h1 x => simp at h
  | h2 x y l ih =>
    have hl : l.length % 2 = 0 := by
      simp only [List.length_cons] at h
      omega
    cases y <;> simp [bindValues, ih _ hl]

theorem context_Log_even (root : Logger) (bound : List Value) (hv : Bool)
    (keyvals : List Value) (site : String) (w : World) (h : bound.length % 2 = 0) :
    (Logger.context root bound hv).Log keyvals site w =
      root.Log ((boundValues (.context root bound hv) site w).1 ++ padMissing keyvals) site
        (boundValues (.context root bound hv) site w).2 := by
  cases hv <;>
    simp [Logger.Log, boundValues, newContext, padMissing_append_even _ _ h]

/-! ## The handle `NewLogger` returns -/

theorem NewLogger_ok (L : Level) (logFormat debugName : String) (w0 : World) :
    NewLogger L.name logFormat debugName w0 = .ok (handleOf L logFormat debugName, w0) := by
  have hf : (if logFormat = "" then "logfmt" else logFormat) = "json" ↔
      logFormat = "json" := by
    by_cases h : logFormat = ""
    · subst h
      simp
    · simp [h]
  by_cases hj : logFormat = "json" <;> by_cases hd : debugName = "" <;>
    cases L <;>
    simp [NewLogger, Level.name, handleOf, allowOf, formatOf, sinkOf, level.NewFilter, log.With,
      newContext, padMissing, containsValuer, LogFormatLogfmt, LogFormatJSON, hf, hj, hd]

theorem allowOf_land (L E : Level) : allowOf L &&& E.bit ≠ 0 ↔ L.rank ≤ E.rank := by
  cases L <;> cases E <;> decide

theorem filter_Log (L : Level) (fmt : Format) (entry : List Value) (site : String) (w : World) :
    (Logger.filter (sinkOf fmt) (allowOf L)).Log entry site w =
      if passes L entry then { w with stderr := w.stderr ++ [⟨fmt, entry⟩] } else w := by
  unfold passes
  cases h : findLevel entry with
  | none => cases fmt <;> simp [Logger.Log, sinkOf, h]
  | some l =>
    by_cases hr : L.rank ≤ l.rank
    · have := (allowOf_land L l).2 hr
      cases fmt <;> simp [Logger.Log, sinkOf, h, hr, this]
    · have : ¬ (allowOf L &&& l.bit ≠ 0) := fun c => hr ((allowOf_land L l).1 c)
      cases fmt <;> simp [Logger.Log, sinkOf, h, hr, this]

theorem emit_handleOf (L : Level) (logFormat debugName : String) (tag : Option Level)
    (keyvals : List Value) (site : String) (w : World) :
    emit (handleOf L logFormat debugName) tag keyvals site w =
      (Logger.filter (sinkOf (formatOf logFormat)) (allowOf L)).Log
        (tagFields tag ++ handleFields debugName w.now site ++ padMissing keyvals) site
        { w with evaluated := w.evaluated ++ [.DefaultTimestampUTC, .DefaultCaller] } := by
  by_cases hd : debugName = "" <;> cases tag with
  | none =>
    simp [emit, handleOf, hd, tagFields, handleFields]
    rw [context_Log_even _ _ _ _ _ _ (by simp)]
    simp [boundValues, newContext, bindValues, Valuer.eval]
  | some l =>
    cases l <;>
    simp [emit, handleOf, hd, tagFields, handleFields, level.tagged, level.Debug, level.Info,
      level.Warn, level.Error, log.WithPrefix, newContext, padMissing, containsValuer] <;>
    rw [context_Log_even _ _ _ _ _ _ (by simp)] <;>
    simp [boundValues, newContext, bindValues, Valuer.eval, level.Key, padMissing]

theorem passes_entryOf (L : Level) (debugName : String) (tag : Option Level)
    (keyvals : List Value) (site : String) (w : World) :
    passes L (entryOf debugName tag keyvals site w) =
      match tag with
      | some l => decide (L.rank ≤ l.rank)
      | none => passes L keyvals := by
  by_cases hd : debugName = "" <;> cases tag <;>
    simp [passes, entryOf, tagFields, handleFields, hd, findLevel, level.Key,
      findLevel_padMissing]

theorem emit_handleOf_eq (L : Level) (logFormat debugName : String) (tag : Option Level)
    (keyvals : List Value) (site : String) (w : World) :
    emit (handleOf L logFormat debugName) tag keyvals site w =
      if passes L (entryOf debugName tag keyvals site w) then
        { now := w.now,
          stderr := w.stderr ++ [⟨formatOf logFormat, entryOf debugName tag keyvals site w⟩],
          evaluated := w.evaluated ++ [.DefaultTimestampUTC, .DefaultCaller] }
      else
        { now := w.now, stderr := w.stderr,
          evaluated := w.evaluated ++ [.DefaultTimestampUTC, .DefaultCaller] } := by
  rw [emit_handleOf, filter_Log]
  rfl

theorem written_append (w w1 : World) (ls : List Line) (h : w1.stderr = w.stderr ++ ls) :
    written w w1 = ls := by
  simp [written, h]

theorem written_same (w w1 : World) (h : w1.stderr = w.stderr) : written w w1 = [] := by
  simp [written, h]

theorem callback_handleOf (L : Level) (logFormat debugName : String) (code : Int)
    (msg : String) (site : String) (w : World) :
    (NewLibbpfLogCallbacks (handleOf L logFormat debugName)).Log code msg site w =
      (Logger.filter (sinkOf (formatOf logFormat)) (allowOf L)).Log
        (callbackEntry debugName code msg site w) site
        { w with evaluated := w.evaluated ++ [.DefaultTimestampUTC, .DefaultCaller] } := by
  have hc : code = 2 ∨ code = 1 ∨ code = 0 ∨ (code ≠ 2 ∧ code ≠ 1 ∧ code ≠ 0) := by omega
  by_cases hd : debugName = "" <;> rcases hc with h | h | h | ⟨h2, h1, h0⟩ <;>
    first
    | subst h
    | skip
  all_goals
    simp [NewLibbpfLogCallbacks, handleOf, hd, mappedLevel, callbackEntry, tagFields,
      handleFields, level.Debug, level.Info, level.Warn, log.With, log.WithPrefix, newContext,
      padMissing, containsValuer, LibbpfDebugLevel, LibbpfInfoLevel, LibbpfWarnLevel, *]
    rw [context_Log_even _ _ _ _ _ _ (by simp)]
    simp [boundValues, newContext, bindValues, Valuer.eval, level.Key, padMissing]

theorem passes_callbackEntry (L : Level) (debugName : String) (code : Int) (msg : String)
    (site : String) (w : World) :
    passes L (callbackEntry debugName code msg site w) =
      match mappedLevel code with
      | some l => decide (L.rank ≤ l.rank)
      | none => true := by
  unfold callbackEntry
  generalize mappedLevel code = m
  by_cases hd : debugName = "" <;> cases m <;>
    simp [passes, tagFields, handleFields, hd, findLevel, level.Key]

theorem callback_handleOf_eq (L : Level) (logFormat debugName : String) (code : Int)
    (msg : String) (site : String) (w : World) :
    (NewLibbpfLogCallbacks (handleOf L logFormat debugName)).Log code msg site w =
      if passes L (callbackEntry debugName code msg site w) then
        { now := w.now,
          stderr := w.stderr ++ [⟨formatOf logFormat, callbackEntry debugName code msg site w⟩],
          evaluated := w.evaluated ++ [.DefaultTimestampUTC, .DefaultCaller] }
      else
        { now := w.now, stderr := w.stderr,
          evaluated := w.evaluated ++ [.DefaultTimestampUTC, .DefaultCaller] } := by
  rw [callback_handleOf, filter_Log]

theorem emit_written (L : Level) (logFormat debugName : String) (tag : Option Level)
    (keyvals : List Value) (site : String) (w : World) :
    written w (emit (handleOf L logFormat debugName) tag keyvals site w) =
      if passes L (entryOf debugName tag keyvals site w) then
        [⟨formatOf logFormat, entryOf debugName tag keyvals site w⟩]
      else [] := by
  rw [emit_handleOf_eq]
  by_cases hp : passes L (entryOf debugName tag keyvals site w) = true
  · simp [hp, written]
  · simp [hp, written]

theorem callback_written (L : Level) (logFormat debugName : String) (code : Int)
    (msg : String) (site : String) (w : World) :
    written w ((NewLibbpfLogCallbacks (handleOf L logFormat debugName)).Log code msg site w) =
      if passes L (callbackEntry debugName code msg site w) then
        [⟨formatOf logFormat, callbackEntry debugName code msg site w⟩]
      else [] := by
  rw [callback_handleOf_eq]
  by_cases hp : passes L (callbackEntry debugName code msg site w) = true
  · simp [hp, written]
  · simp [hp, written]

theorem emit_error_written (L : Level) (logFormat debugName : String)
    (keyvals : List Value) (site : String) (w : World) :
    (written w (emit (handleOf L logFormat debugName) (some .error) keyvals site w)).length
      = 1 := by
  rw [emit_written, passes_entryOf]
  have hr : L.rank ≤ Level.error.rank := by cases L <;> decide
  simp [hr]

theorem boundValues_length (h : Logger) (site : String) (w : World) :
    (boundValues h site w).1.length = (newContext h).2.1.length := by
  unfold boundValues
  split
  · exact bindValues_length _ _ _
  · rfl

theorem boundValues_keys (h : Logger) (site : String) (w : World) :
    keysOf (boundValues h site w).1 = keysOf (newContext h).2.1 := by
  unfold boundValues
  split
  · exact keysOf_bindValues _ _ _
  · rfl

theorem boundValues_stderr (h : Logger) (site : String) (w : World) :
    (boundValues h site w).2.stderr = w.stderr ∧ (boundValues h site w).2.now = w.now := by
  unfold boundValues
  split
  · exact bindValues_stderr _ _ _
  · exact ⟨rfl, rfl⟩

theorem callback_context (root : Logger) (bound : List Value) (hv : Bool) (code : Int)
    (msg site : String) (w : World) (hEven : bound.length % 2 = 0) :
    (NewLibbpfLogCallbacks (.context root bound hv)).Log code msg site w =
      root.Log
        (tagFields (mappedLevel code) ++ (boundValues (.context root bound hv) site w).1 ++
          [.str "component", .str "libbpf", .str "msg", .str msg]) site
        (boundValues (.context root bound hv) site w).2 := by
  have hpad : padMissing (bound ++ [Value.str "component", Value.str "libbpf"]) =
      bound ++ [Value.str "component", Value.str "libbpf"] :=
    padMissing_of_even _ (by simp; omega)
  have hc : code = 2 ∨ code = 1 ∨ code = 0 ∨ (code ≠ 2 ∧ code ≠ 1 ∧ code ≠ 0) := by omega
  rcases hc with h | h | h | ⟨h2, h1, h0⟩ <;>
    first
    | subst h
    | skip
  all_goals
    simp only [NewLibbpfLogCallbacks, log.With, log.WithPrefix, newContext, level.Debug,
      level.Info, level.Warn, mappedLevel, LibbpfDebugLevel, LibbpfInfoLevel, LibbpfWarnLevel,
      hpad]
    simp [*, containsValuer, tagFields, padMissing]
    rw [context_Log_even _ _ _ _ _ _ (by simp; omega)]
    cases hv <;>
      simp [boundValues, newContext, bindValues, level.Key, padMissing,
        bindValues_append_even _ _ _ _ hEven]

theorem callback_any (h : Logger) (code : Int) (msg site : String) (w : World)
    (hEven : (newContext h).2.1.length % 2 = 0) :
    (NewLibbpfLogCallbacks h).Log code msg site w =
      (newContext h).1.Log
        (tagFields (mappedLevel code) ++ (boundValues h site w).1 ++
          [.str "component", .str "libbpf", .str "msg", .str msg]) site
        (boundValues h site w).2 := by
  cases h with
  | context root bound hv => exact callback_context root bound hv code msg site w hEven
  | logfmtLogger =>
    have := callback_context .logfmtLogger [] false code msg site w rfl
    simpa [NewLibbpfLogCallbacks, log.With, log.WithPrefix, newContext, level.Debug,
      level.Info, level.Warn, boundValues] using this
  | jsonLogger =>
    have := callback_context .jsonLogger [] false code msg site w rfl
    simpa [NewLibbpfLogCallbacks, log.With, log.WithPrefix, newContext, level.Debug,
      level.Info, level.Warn, boundValues] using this
  | filter next allowed =>
    have := callback_context (.filter next allowed) [] false code msg site w rfl
    simpa [NewLibbpfLogCallbacks, log.With, log.WithPrefix, newContext, level.Debug,
      level.Info, level.Warn, boundValues] using this

/-! ## The claims -/

/-- C1: for every threshold `T` (the string `L.name`), format and debug name,
an entry tagged with level `E` and logged through the handle of `NewLogger` is
written, as exactly one line holding that entry, if and only if `E` is at least
as severe as `T`; otherwise `os.Stderr` is left as it was. -/
theorem C1_threshold_filter (L E : Level) (logFormat debugName : String) (w0 : World) :
    ∃ h, NewLogger L.name logFormat debugName w0 = .ok (h, w0) ∧
      ∀ (keyvals : List Value) (site : String) (w : World),
        ((written w ((level.tagged E h).Log keyvals site w)).length = 1 ↔ L.rank ≤ E.rank) ∧
        (L.rank ≤ E.rank →
          ∃ line, ((level.tagged E h).Log keyvals site w).stderr = w.stderr ++ [line] ∧
            line.keyvals =
              [level.Key, .levelValue E] ++ handleFields debugName w.now site ++
                padMissing keyvals) ∧
        (¬ L.rank ≤ E.rank → ((level.tagged E h).Log keyvals site w).stderr = w.stderr) := by
  refine ⟨handleOf L logFormat debugName, NewLogger_ok L logFormat debugName w0, ?_⟩
  intro keyvals site w
  have he := emit_handleOf_eq L logFormat debugName (some E) keyvals site w
  rw [passes_entryOf] at he
  simp only [emit] at he
  by_cases hr : L.rank ≤ E.rank
  · simp only [hr, decide_True, if_true] at he
    refine ⟨?_, ?_, fun c => absurd hr c⟩
    · rw [written_append w _ _ (by rw [he])]
      simp [hr]
    · intro _
      exact ⟨_, by rw [he], rfl⟩
  · simp only [hr, decide_False] at he
    have hs : ((level.tagged E (handleOf L logFormat debugName)).Log keyvals site w).stderr =
        w.stderr := by rw [he]; rfl
    refine ⟨?_, fun c => absurd c hr, fun _ => hs⟩
    rw [written_same w _ hs]
    simp [hr]

/-- C2: `NewLogger` returns a handle for each of the four strings "error",
"warn", "info", "debug", whatever the format and the debug name, and panics
for every other string. -/
theorem C2_panics_iff_unknown_level (logLevel logFormat debugName : String) (w0 : World) :
    (logLevel ∈ ["error", "warn", "info", "debug"] ↔
        ∃ h, NewLogger logLevel logFormat debugName w0 = .ok (h, w0)) ∧
      (logLevel ∉ ["error", "warn", "info", "debug"] ↔
        NewLogger logLevel logFormat debugName w0 = .error "unexpected log level") := by
  by_cases h : logLevel ∈ ["error", "warn", "info", "debug"]
  · have hL : ∃ L : Level, logLevel = L.name := by
      simp only [List.mem_cons, List.mem_singleton, List.not_mem_nil, or_false] at h
      rcases h with h | h | h | h
      · exact ⟨.error, h⟩
      · exact ⟨.warn, h⟩
      · exact ⟨.info, h⟩
      · exact ⟨.debug, h⟩
    obtain ⟨L, rfl⟩ := hL
    have hok := NewLogger_ok L logFormat debugName w0
    refine ⟨⟨fun _ => ⟨_, hok⟩, fun _ => h⟩, ⟨fun c => absurd h c, fun c => ?_⟩⟩
    rw [hok] at c
    cases c
  · have hp : NewLogger logLevel logFormat debugName w0 = .error "unexpected log level" := by
      simp only [List.mem_cons, List.mem_singleton, List.not_mem_nil, or_false, not_or] at h
      simp [NewLogger, h]
    refine ⟨⟨fun c => absurd c h, fun ⟨x, hx⟩ => ?_⟩, ⟨fun _ => hp, fun _ => h⟩⟩
    rw [hp] at hx
    cases hx

/-- C3 (refuted as stated): over a handle that already binds `component` the
entry the callback logs has two `component = libbpf` fields, and over a handle
that already binds a level the entry of an unrecognised code (999) has a level
field. -/
theorem C3_counterexample :
    (NewLibbpfLogCallbacks
        (log.With .logfmtLogger [.str "component", .str "libbpf"])).Log 2 "hello" "bpf.go:1"
        ⟨0, [], []⟩ =
      ⟨0, [⟨.logfmt, [.str "level", .levelValue .debug, .str "component", .str "libbpf",
        .str "component", .str "libbpf", .str "msg", .str "hello"]⟩], []⟩ ∧
    (NewLibbpfLogCallbacks (level.Error .logfmtLogger)).Log 999 "hello" "bpf.go:1"
        ⟨0, [], []⟩ =
      ⟨0, [⟨.logfmt, [.str "level", .levelValue .error, .str "component", .str "libbpf",
        .str "msg", .str "hello"]⟩], []⟩ := by
  decide

/-- C3 (amended): for every logger handle whose own bound fields (an even list,
as `log.With` builds it) use none of the keys `component`, `msg` and `level`,
every code and every message `m`, one invocation of the callback is exactly one
`Log` call that delivers to the logger under the handle the entry made of the
level tag, the handle's bound fields with their valuers run, `component =
libbpf` and `msg = m`. That entry has exactly one `component` field, with value
"libbpf", exactly one `msg` field, with value `m`, and the level field debug,
info or warn for the three constants and no level field for any other code.
Running the valuers writes nothing. -/
theorem C3_callback_entry (h : Logger) (code : Int) (msg site : String) (w : World)
    (hEven : (newContext h).2.1.length % 2 = 0)
    (hFree : ∀ k ∈ keysOf (newContext h).2.1,
      k ≠ .str "component" ∧ k ≠ .str "msg" ∧ k ≠ level.Key) :
    ∃ entry,
      entry = tagFields (mappedLevel code) ++ (boundValues h site w).1 ++
        [.str "component", .str "libbpf", .str "msg", .str msg] ∧
      (NewLibbpfLogCallbacks h).Log code msg site w =
        (newContext h).1.Log entry site (boundValues h site w).2 ∧
      (boundValues h site w).2.stderr = w.stderr ∧
      valuesOf (.str "component") entry = [.str "libbpf"] ∧
      valuesOf (.str "msg") entry = [.str msg] ∧
      (code = LibbpfDebugLevel → valuesOf level.Key entry = [.levelValue .debug]) ∧
      (code = LibbpfInfoLevel → valuesOf level.Key entry = [.levelValue .info]) ∧
      (code = LibbpfWarnLevel → valuesOf level.Key entry = [.levelValue .warn]) ∧
      (code ≠ LibbpfDebugLevel → code ≠ LibbpfInfoLevel → code ≠ LibbpfWarnLevel →
        level.Key ∉ keysOf entry) := by
  have hb : (boundValues h site w).1.length % 2 = 0 := by rw [boundValues_length]; exact hEven
  have hk := boundValues_keys h site w
  have hc : Value.str "component" ∉ keysOf (boundValues h site w).1 := by
    rw [hk]; exact fun c => (hFree _ c).1 rfl
  have hm : Value.str "msg" ∉ keysOf (boundValues h site w).1 := by
    rw [hk]; exact fun c => (hFree _ c).2.1 rfl
  have hl : level.Key ∉ keysOf (boundValues h site w).1 := by
    rw [hk]; exact fun c => (hFree _ c).2.2 rfl
  have ht : ∀ t : Option Level, (tagFields t).length % 2 = 0 := by
    intro t; cases t <;> simp [tagFields]
  have hte : ∀ t : Option Level,
      (tagFields t ++ (boundValues h site w).1).length % 2 = 0 := by
    intro t
    have := ht t
    simp only [List.length_append]
    omega
  have hlev : ∀ t : Option Level,
      valuesOf level.Key (tagFields t ++ (boundValues h site w).1 ++
        [.str "component", .str "libbpf", .str "msg", .str msg]) = valuesOf level.Key (tagFields t) := by
    intro t
    rw [valuesOf_append_even _ _ _ (hte t), valuesOf_append_even _ _ _ (ht t),
      valuesOf_eq_nil _ _ hl]
    simp [valuesOf, level.Key]
  refine ⟨_, rfl, callback_any h code msg site w hEven, (boundValues_stderr h site w).1,
    ?_, ?_, ?_, ?_, ?_, ?_⟩
  · rw [valuesOf_append_even _ _ _ (hte _), valuesOf_append_even _ _ _ (ht _),
      valuesOf_eq_nil _ _ hc]
    cases mappedLevel code <;> simp [valuesOf, tagFields, level.Key]
  · rw [valuesOf_append_even _ _ _ (hte _), valuesOf_append_even _ _ _ (ht _),
      valuesOf_eq_nil _ _ hm]
    cases mappedLevel code <;> simp [valuesOf, tagFields, level.Key]
  · intro hcode
    rw [hlev]
    simp [mappedLevel, hcode, tagFields, valuesOf]
  · intro hcode
    rw [hlev]
    simp [mappedLevel, hcode, tagFields, valuesOf, LibbpfInfoLevel, LibbpfDebugLevel]
  · intro hcode
    rw [hlev]
    simp [mappedLevel, hcode, tagFields, valuesOf, LibbpfInfoLevel, LibbpfDebugLevel,
      LibbpfWarnLevel]
  · intro h2 h1 h0
    rw [keysOf_append_even _ _ (hte _), keysOf_append_even _ _ (ht _)]
    simp [mappedLevel, h2, h1, h0, tagFields, keysOf, hl, level.Key]
    simpa [level.Key] using hl

/-- Witness of C3 (amended): the handle of threshold "warn" with debug name
"worker1", the debug code and the message "hello". -/
theorem C3_callback_entry_witness :
    (newContext (handleOf .warn "logfmt" "worker1")).2.1.length % 2 = 0 ∧
    (∀ k ∈ keysOf (newContext (handleOf .warn "logfmt" "worker1")).2.1,
      k ≠ .str "component" ∧ k ≠ .str "msg" ∧ k ≠ level.Key) ∧
    ∃ entry,
      entry = tagFields (mappedLevel 2) ++
        (boundValues (handleOf .warn "logfmt" "worker1") "bpf.go:1" ⟨7, [], []⟩).1 ++
        [.str "component", .str "libbpf", .str "msg", .str "hello"] ∧
      (NewLibbpfLogCallbacks (handleOf .warn "logfmt" "worker1")).Log 2 "hello" "bpf.go:1"
          ⟨7, [], []⟩ =
        (newContext (handleOf .warn "logfmt" "worker1")).1.Log entry "bpf.go:1"
          (boundValues (handleOf .warn "logfmt" "worker1") "bpf.go:1" ⟨7, [], []⟩).2 ∧
      (boundValues (handleOf .warn "logfmt" "worker1") "bpf.go:1" ⟨7, [], []⟩).2.stderr = [] ∧
      valuesOf (.str "component") entry = [.str "libbpf"] ∧
      valuesOf (.str "msg") entry = [.str "hello"] ∧
      ((2 : Int) = LibbpfDebugLevel → valuesOf level.Key entry = [.levelValue .debug]) ∧
      ((2 : Int) = LibbpfInfoLevel → valuesOf level.Key entry = [.levelValue .info]) ∧
      ((2 : Int) = LibbpfWarnLevel → valuesOf level.Key entry = [.levelValue .warn]) ∧
      ((2 : Int) ≠ LibbpfDebugLevel → (2 : Int) ≠ LibbpfInfoLevel → (2 : Int) ≠ LibbpfWarnLevel →
        level.Key ∉ keysOf entry) :=
  ⟨by decide, by decide,
    C3_callback_entry (handleOf .warn "logfmt" "worker1") 2 "hello" "bpf.go:1" ⟨7, [], []⟩
      (by decide) (by decide)⟩

/-- C4: over a handle of `NewLogger` with threshold `T` (the string `L.name`),
one invocation of the libbpf callback appends exactly one line when the code is
not one of the three constants, or when the level it maps to is at least as
severe as `T`, and leaves `os.Stderr` as it was when the mapped level is less
severe than `T`. -/
theorem C4_callback_writes_subject_to_filter (L : Level) (logFormat debugName : String)
    (w0 : World) (code : Int) (msg site : String) (w : World) :
    ∃ h, NewLogger L.name logFormat debugName w0 = .ok (h, w0) ∧
      (mappedLevel code = none →
        (written w ((NewLibbpfLogCallbacks h).Log code msg site w)).length = 1 ∧
        ∃ line, ((NewLibbpfLogCallbacks h).Log code msg site w).stderr = w.stderr ++ [line]) ∧
      (∀ l, mappedLevel code = some l → L.rank ≤ l.rank →
        (written w ((NewLibbpfLogCallbacks h).Log code msg site w)).length = 1 ∧
        ∃ line, ((NewLibbpfLogCallbacks h).Log code msg site w).stderr = w.stderr ++ [line]) ∧
      (∀ l, mappedLevel code = some l → l.rank < L.rank →
        ((NewLibbpfLogCallbacks h).Log code msg site w).stderr = w.stderr) := by
  refine ⟨handleOf L logFormat debugName, NewLogger_ok L logFormat debugName w0, ?_, ?_, ?_⟩
  · intro hn
    have he := callback_handleOf_eq L logFormat debugName code msg site w
    rw [passes_callbackEntry, hn] at he
    simp only [if_true] at he
    exact ⟨by rw [written_append w _ _ (by rw [he])]; rfl, _, by rw [he]⟩
  · intro l hl hr
    have he := callback_handleOf_eq L logFormat debugName code msg site w
    rw [passes_callbackEntry, hl] at he
    simp only [hr, decide_True, if_true] at he
    exact ⟨by rw [written_append w _ _ (by rw [he])]; rfl, _, by rw [he]⟩
  · intro l hl hr
    have he := callback_handleOf_eq L logFormat debugName code msg site w
    rw [passes_callbackEntry, hl] at he
    have hn : ¬ L.rank ≤ l.rank := by omega
    simp only [hn, decide_False] at he
    rw [he]
    rfl

/-- C5 (refuted as stated): with an empty debug name, an entry whose own
key/values use the key `name` is written with a `name` field. -/
theorem C5_counterexample :
    ∃ h, NewLogger "debug" "logfmt" "" ⟨0, [], []⟩ = .ok (h, ⟨0, [], []⟩) ∧
      h.Log [.str "name", .str "x"] "main.go:10" ⟨7, [], []⟩ =
        ⟨7, [⟨.logfmt, [.str "ts", .timeFormat 7 RFC3339Nano, .str "caller",
          .caller "main.go:10", .str "name", .str "x"]⟩],
          [.DefaultTimestampUTC, .DefaultCaller]⟩ :=
  ⟨_, rfl, by decide⟩

/-- C5 (amended): every line written through a handle of `NewLogger` holds the
level tag of the call (if any), then the handle's fields, then the call's own
key/values; so it carries a `ts` and a `caller` field, and for a non-empty debug
name its first `name` field is the debug name. For an entry whose own
key/values do not use the key `name`, it carries a `name` field if and only if
the debug name is not empty, and then the debug name is its only value. An
entry tagged error is written under every threshold, so such lines exist. -/
theorem C5_handle_fields (L : Level) (logFormat debugName : String) (w0 : World) :
    ∃ h, NewLogger L.name logFormat debugName w0 = .ok (h, w0) ∧
      ∀ (tag : Option Level) (keyvals : List Value) (site : String) (w : World),
        (∀ line ∈ written w (emit h tag keyvals site w),
          line.keyvals =
            tagFields tag ++ handleFields debugName w.now site ++ padMissing keyvals ∧
          .str "ts" ∈ keysOf line.keyvals ∧
          .str "caller" ∈ keysOf line.keyvals ∧
          (debugName ≠ "" →
            (valuesOf (.str "name") line.keyvals).head? = some (.str debugName)) ∧
          (.str "name" ∉ keysOf keyvals →
            (.str "name" ∈ keysOf line.keyvals ↔ debugName ≠ "") ∧
            (debugName ≠ "" → valuesOf (.str "name") line.keyvals = [.str debugName]))) ∧
        (written w (emit h (some .error) keyvals site w)).length = 1 := by
  refine ⟨handleOf L logFormat debugName, NewLogger_ok L logFormat debugName w0, ?_⟩
  intro tag keyvals site w
  refine ⟨?_, emit_error_written L logFormat debugName keyvals site w⟩
  intro line hline
  rw [emit_written] at hline
  by_cases hp : passes L (entryOf debugName tag keyvals site w) = true
  · simp only [hp, if_true, List.mem_singleton] at hline
    subst hline
    refine ⟨rfl, ?_, ?_, ?_, ?_⟩
    · by_cases hd : debugName = "" <;> cases tag <;>
        simp [entryOf, tagFields, handleFields, hd, keysOf, level.Key]
    · by_cases hd : debugName = "" <;> cases tag <;>
        simp [entryOf, tagFields, handleFields, hd, keysOf, level.Key]
    · intro hd
      cases tag <;> simp [entryOf, tagFields, handleFields, hd, valuesOf, level.Key]
    · intro hn
      have hn2 : Value.str "name" ∉ keysOf (padMissing keyvals) := by
        rw [keysOf_padMissing]; exact hn
      have hv := valuesOf_eq_nil _ _ hn2
      by_cases hd : debugName = "" <;> cases tag <;>
        simp [entryOf, tagFields, handleFields, hd, keysOf, valuesOf, level.Key, hn2, hv]
  · simp [hp] at hline

/-- C6: for every threshold and debug name, `NewLogger` returns a handle for
every format string, and a line written through the handle is serialized as
JSON if and only if the format string is exactly "json"; every other string,
the empty one and "logfmt" included, gives logfmt. An entry tagged error is
written under every threshold, so such lines exist. -/
theorem C6_json_iff_format_json (L : Level) (logFormat debugName : String) (w0 : World) :
    ∃ h, NewLogger L.name logFormat debugName w0 = .ok (h, w0) ∧
      ∀ (tag : Option Level) (keyvals : List Value) (site : String) (w : World),
        (∀ line ∈ written w (emit h tag keyvals site w),
          (line.format = .json ↔ logFormat = "json") ∧
          (line.format = .logfmt ↔ logFormat ≠ "json")) ∧
        (written w (emit h (some .error) keyvals site w)).length = 1 := by
  refine ⟨handleOf L logFormat debugName, NewLogger_ok L logFormat debugName w0, ?_⟩
  intro tag keyvals site w
  constructor
  · intro line hline
    have he := emit_handleOf_eq L logFormat debugName tag keyvals site w
    by_cases hp : passes L (entryOf debugName tag keyvals site w) = true
    · simp only [hp, if_true] at he
      rw [written_append w _ _ (by rw [he])] at hline
      simp only [List.mem_singleton] at hline
      subst hline
      by_cases hj : logFormat = "json" <;> simp [formatOf, hj]
    · simp only [hp] at he
      rw [written_same w _ (by rw [he]; rfl)] at hline
      cases hline
  · have he := emit_handleOf_eq L logFormat debugName (some .error) keyvals site w
    rw [passes_entryOf] at he
    have hr : L.rank ≤ Level.error.rank := by cases L <;> decide
    simp only [hr, decide_True, if_true] at he
    rw [written_append w _ _ (by rw [he])]
    rfl

/-- C7: the `ts` field of a line written through a handle of `NewLogger` is the
clock at the time of the `Log` call (`w.now`, in UTC with the layout
RFC3339Nano), whatever the clock was when `NewLogger` ran (`w0.now`); so lines
written through the same handle at different clock times carry different `ts`
values. An entry tagged error is written under every threshold, so such lines
exist. -/
theorem C7_ts_is_emission_time (L : Level) (logFormat debugName : String) (w0 : World) :
    ∃ h, NewLogger L.name logFormat debugName w0 = .ok (h, w0) ∧
      (∀ (tag : Option Level) (keyvals : List Value) (site : String) (w : World),
        (∀ line ∈ written w (emit h tag keyvals site w),
          (valuesOf (.str "ts") line.keyvals).head? = some (.timeFormat w.now RFC3339Nano)) ∧
        (written w (emit h (some .error) keyvals site w)).length = 1) ∧
      (∀ (tag1 tag2 : Option Level) (kvs1 kvs2 : List Value) (site1 site2 : String)
          (w1 w2 : World), w1.now ≠ w2.now →
        ∀ l1 ∈ written w1 (emit h tag1 kvs1 site1 w1),
        ∀ l2 ∈ written w2 (emit h tag2 kvs2 site2 w2),
          (valuesOf (.str "ts") l1.keyvals).head? ≠ (valuesOf (.str "ts") l2.keyvals).head?) := by
  have key : ∀ (tag : Option Level) (keyvals : List Value) (site : String) (w : World),
      ∀ line ∈ written w (emit (handleOf L logFormat debugName) tag keyvals site w),
        (valuesOf (.str "ts") line.keyvals).head? = some (.timeFormat w.now RFC3339Nano) := by
    intro tag keyvals site w line hline
    have he := emit_handleOf_eq L logFormat debugName tag keyvals site w
    by_cases hp : passes L (entryOf debugName tag keyvals site w) = true
    · simp only [hp, if_true] at he
      rw [written_append w _ _ (by rw [he])] at hline
      simp only [List.mem_singleton] at hline
      subst hline
      by_cases hd : debugName = "" <;> cases tag <;>
        simp [entryOf, tagFields, handleFields, hd, valuesOf, level.Key]
    · simp only [hp] at he
      rw [written_same w _ (by rw [he]; rfl)] at hline
      cases hline
  refine ⟨handleOf L logFormat debugName, NewLogger_ok L logFormat debugName w0, ?_, ?_⟩
  · intro tag keyvals site w
    refine ⟨key tag keyvals site w, ?_⟩
    have he := emit_handleOf_eq L logFormat debugName (some .error) keyvals site w
    rw [passes_entryOf] at he
    have hr : L.rank ≤ Level.error.rank := by cases L <;> decide
    simp only [hr, decide_True, if_true] at he
    rw [written_append w _ _ (by rw [he])]
    rfl
  · intro tag1 tag2 kvs1 kvs2 site1 site2 w1 w2 hne l1 h1 l2 h2
    rw [key tag1 kvs1 site1 w1 l1 h1, key tag2 kvs2 site2 w2 l2 h2]
    intro c
    injection c with c
    injection c with c
    exact hne c

/-- C9 (refuted as stated): under threshold "warn" a debug entry logged through
the handle of `NewLogger` writes nothing, yet both bound valuers are run: the
record of evaluations goes from empty to the timestamp function and the caller
function. -/
theorem C9_counterexample :
    ∃ h, NewLogger "warn" "logfmt" "" ⟨0, [], []⟩ = .ok (h, ⟨0, [], []⟩) ∧
      (level.Debug h).Log [.str "msg", .str "x"] "main.go:10" ⟨7, [], []⟩ =
        ⟨7, [], [.DefaultTimestampUTC, .DefaultCaller]⟩ :=
  ⟨_, rfl, by decide⟩

/-- C9 (amended): for every threshold `T` (the string `L.name`) and every entry
whose level `E` is less severe than `T`, logging it through the handle of
`NewLogger` writes nothing, and runs the timestamp function and then the caller
function, once each: the context runs its bound valuers before it hands the
entry to the filter. -/
theorem C9_dropped_entry_runs_valuers (L E : Level) (logFormat debugName : String)
    (w0 : World) (hlt : E.rank < L.rank) :
    ∃ h, NewLogger L.name logFormat debugName w0 = .ok (h, w0) ∧
      ∀ (keyvals : List Value) (site : String) (w : World),
        ((level.tagged E h).Log keyvals site w).stderr = w.stderr ∧
        ((level.tagged E h).Log keyvals site w).now = w.now ∧
        ((level.tagged E h).Log keyvals site w).evaluated =
          w.evaluated ++ [.DefaultTimestampUTC, .DefaultCaller] := by
  refine ⟨handleOf L logFormat debugName, NewLogger_ok L logFormat debugName w0, ?_⟩
  intro keyvals site w
  have he := emit_handleOf_eq L logFormat debugName (some E) keyvals site w
  rw [passes_entryOf] at he
  have hn : ¬ L.rank ≤ E.rank := by omega
  simp only [emit, hn, decide_False] at he
  rw [he]
  exact ⟨rfl, rfl, rfl⟩

/-- Witness of C9 (amended): threshold "warn", a debug entry. -/
theorem C9_dropped_entry_runs_valuers_witness :
    Level.debug.rank < Level.warn.rank ∧
      ∃ h, NewLogger Level.warn.name "json" "worker1" ⟨0, [], []⟩ = .ok (h, ⟨0, [], []⟩) ∧
        ∀ (keyvals : List Value) (site : String) (w : World),
          ((level.tagged .debug h).Log keyvals site w).stderr = w.stderr ∧
          ((level.tagged .debug h).Log keyvals site w).now = w.now ∧
          ((level.tagged .debug h).Log keyvals site w).evaluated =
            w.evaluated ++ [.DefaultTimestampUTC, .DefaultCaller] :=
  ⟨by decide, C9_dropped_entry_runs_valuers .warn .debug "json" "worker1" ⟨0, [], []⟩ (by decide)⟩

/-- C10 (refuted as stated): with format "json" the line the callback writes for
the debug code lists its keys sorted, `caller, component, level, msg, name, ts`,
not in the order `level, name, ts, caller, component, msg`. -/
theorem C10_counterexample :
    ∃ h, NewLogger "debug" "json" "worker1" ⟨0, [], []⟩ = .ok (h, ⟨0, [], []⟩) ∧
      (((NewLibbpfLogCallbacks h).Log 2 "hello" "bpf.go:1" ⟨7, [], []⟩).stderr.map
          Line.fieldOrder =
        [some ["caller", "component", "level", "msg", "name", "ts"]]) ∧
      ["caller", "component", "level", "msg", "name", "ts"] ≠
        ["level", "name", "ts", "caller", "component", "msg"] :=
  ⟨_, rfl, by decide, by decide⟩

/-- C10 (amended): a line the libbpf callback writes over a handle of
`NewLogger` holds an entry whose keys are, in this order, `level` (only for the
debug, info and warn codes), `name` (only for a non-empty debug name), `ts`,
`caller`, `component`, `msg`, with no key twice. For every format string other
than "json" (logfmt) the keys stand on the line in that order; for "json" they
stand sorted: `caller`, `component`, `level`, `msg`, `name`, `ts`, with `level`
and `name` present under the same conditions. A line is written for every code
that is none of the three constants, and for a mapped level that is at least as
severe as the threshold. -/
theorem C10_callback_field_order (L : Level) (logFormat debugName : String) (w0 : World)
    (code : Int) (msg site : String) (w : World) :
    ∃ h, NewLogger L.name logFormat debugName w0 = .ok (h, w0) ∧
      (∀ line ∈ written w ((NewLibbpfLogCallbacks h).Log code msg site w),
        keysOf line.keyvals =
          (match mappedLevel code with
            | some _ => [.str "level"]
            | none => []) ++
          (if debugName ≠ "" then [.str "name"] else []) ++
          [.str "ts", .str "caller", .str "component", .str "msg"] ∧
        (keysOf line.keyvals).Nodup ∧
        (logFormat ≠ "json" →
          line.fieldOrder = some (
            (match mappedLevel code with
              | some _ => ["level"]
              | none => []) ++
            (if debugName ≠ "" then ["name"] else []) ++
            ["ts", "caller", "component", "msg"])) ∧
        (logFormat = "json" →
          line.fieldOrder = some (
            ["caller", "component"] ++
            (match mappedLevel code with
              | some _ => ["level"]
              | none => []) ++
            ["msg"] ++
            (if debugName ≠ "" then ["name"] else []) ++
            ["ts"]))) ∧
      (mappedLevel code = none →
        (written w ((NewLibbpfLogCallbacks h).Log code msg site w)).length = 1) ∧
      (∀ l, mappedLevel code = some l → L.rank ≤ l.rank →
        (written w ((NewLibbpfLogCallbacks h).Log code msg site w)).length = 1) := by
  refine ⟨handleOf L logFormat debugName, NewLogger_ok L logFormat debugName w0, ?_, ?_, ?_⟩
  · intro line hline
    rw [callback_written] at hline
    by_cases hp : passes L (callbackEntry debugName code msg site w) = true
    · simp only [hp, if_true, List.mem_singleton] at hline
      subst hline
      simp only [callbackEntry, Line.fieldOrder]
      generalize mappedLevel code = m
      have h1 : sortedKeys ["ts", "caller", "component", "msg"] =
          ["caller", "component", "msg", "ts"] := by decide
      have h2 : sortedKeys ["level", "ts", "caller", "component", "msg"] =
          ["caller", "component", "level", "msg", "ts"] := by decide
      have h3 : sortedKeys ["name", "ts", "caller", "component", "msg"] =
          ["caller", "component", "msg", "name", "ts"] := by decide
      have h4 : sortedKeys ["level", "name", "ts", "caller", "component", "msg"] =
          ["caller", "component", "level", "msg", "name", "ts"] := by decide
      by_cases hj : logFormat = "json" <;> by_cases hd : debugName = "" <;> cases m <;>
        simp [tagFields, handleFields, hd, hj, formatOf, keysOf, keyStrings, level.Key,
          h1, h2, h3, h4]
    · simp [hp] at hline
  · intro hn
    rw [callback_written, passes_callbackEntry, hn]
    rfl
  · intro l hl hr
    rw [callback_written, passes_callbackEntry, hl]
    simp [hr]

end logger
